import Mathlib

/-!
Verification of the review-analysis core of the Google-Play-Store-Reviews
repository: text preprocessing, rule-based theme identification, lexicon
sentiment classification, TF-IDF keyword extraction, the English-language
heuristic and duplicate removal of the preprocessor.

Review text is embedded as a list of Unicode codepoints (`List Nat`); a
nullable text is an `Option (List Nat)`. Scores are rationals. The source
modules `theme_analyzer.py`, `sentiment_analyzer.py` and `preprocessing.py`
are not part of the provided sources (only their test suites are), so the
definitions below are modelled from the specification, and checked against
the concrete expectations recorded in the test suites.
-/

set_option autoImplicit false

/-- Codepoints of a string literal, used to move concrete text into the
codepoint embedding. -/
def kwCodes (s : String) : List Nat := s.data.map Char.toNat

/-- Whitespace test on a codepoint: space, tab, line feed or carriage
return. -/
def isSpaceN (n : Nat) : Bool := n == 32 || n == 9 || n == 10 || n == 13

/-- Lowercase ASCII letter test on a codepoint. -/
def isLowerAlphaN (n : Nat) : Bool := decide (97 ≤ n) && decide (n ≤ 122)

/-- ASCII letter test (either case) on a codepoint. -/
def isAsciiAlphaN (n : Nat) : Bool :=
  decide ((65 ≤ n ∧ n ≤ 90) ∨ (97 ≤ n ∧ n ≤ 122))

/-- ASCII lowercasing of a codepoint, the per-character behaviour of the
lowercasing step of the preprocessors. -/
def lowerN (n : Nat) : Nat := if 65 ≤ n ∧ n ≤ 90 then n + 32 else n

/-- ASCII uppercasing of a codepoint, used to express case variants of an
input text. -/
def upperN (n : Nat) : Nat := if 97 ≤ n ∧ n ≤ 122 then n - 32 else n

namespace ThemeAnalyzer

/-- Modelled from the spec: the character filter of `preprocess_text`, which
strips all characters that are not letters or whitespace (punctuation and
digits are removed); it runs after lowercasing, so the letters kept are the
lowercase ones. -/
def stripNonAlpha (l : List Nat) : List Nat :=
  l.filter (fun n => isLowerAlphaN n || isSpaceN n)

/-- Splits a codepoint list at whitespace into fields; empty fields mark
adjacent, leading or trailing whitespace. The result is always nonempty. -/
def fields : List Nat → List (List Nat)
  | [] => [[]]
  | c :: cs =>
    if isSpaceN c then [] :: fields cs
    else
      match fields cs with
      | [] => [[c]]
      | w :: ws => (c :: w) :: ws

/-- The whitespace-separated words of a codepoint list (nonempty fields). -/
def wordsOf (l : List Nat) : List (List Nat) :=
  (fields l).filter (fun w => !w.isEmpty)

/-- Joins words with single spaces, leaving no leading or trailing space. -/
def joinWords : List (List Nat) → List Nat
  | [] => []
  | [w] => w
  | w :: ws => w ++ 32 :: joinWords ws

/-- Modelled from the spec: the core of `preprocess_text` on non-null text —
lowercase, strip characters that are neither letters nor whitespace,
collapse whitespace runs to single spaces and trim the ends. -/
def preprocessCore (l : List Nat) : List Nat :=
  joinWords (wordsOf (stripNonAlpha (l.map lowerN)))

/-- Modelled from the spec: `ThemeAnalyzer.preprocess_text`; null input maps
to the empty string without an exception. -/
def preprocess_text : Option (List Nat) → List Nat
  | none => []
  | some l => preprocessCore l

theorem fields_ne_nil : ∀ l : List Nat, fields l ≠ []
  | [] => by simp [fields]
  | c :: cs => by
    by_cases h : isSpaceN c
    · simp [fields, h]
    · rcases hf : fields cs with _ | ⟨w, ws⟩
      · exact absurd hf (fields_ne_nil cs)
      · simp [fields, h, hf]

theorem mem_fields_mem :
    ∀ (l : List Nat), ∀ w ∈ fields l, ∀ c ∈ w, c ∈ l
  | [], w, hw, c, hc => by
    simp [fields] at hw; subst hw; simp at hc
  | d :: cs, w, hw, c, hc => by
    by_cases h : isSpaceN d
    · simp only [fields, h, if_pos] at hw
      rcases List.mem_cons.mp hw with h1 | h1
      · subst h1; simp at hc
      · exact List.mem_cons_of_mem d (mem_fields_mem cs w h1 c hc)
    · rcases hf : fields cs with _ | ⟨w0, ws0⟩
      · exact absurd hf (fields_ne_nil cs)
      · simp only [fields, h, if_neg, hf] at hw
        rcases List.mem_cons.mp hw with h1 | h1
        · subst h1
          rcases List.mem_cons.mp hc with h2 | h2
          · rw [h2]; exact List.mem_cons_self d cs
          · exact List.mem_cons_of_mem d
              (mem_fields_mem cs w0 (by rw [hf]; exact List.mem_cons_self w0 ws0) c h2)
        · exact List.mem_cons_of_mem d
            (mem_fields_mem cs w (by rw [hf]; exact List.mem_cons_of_mem w0 h1) c hc)

theorem mem_fields_not_space :
    ∀ (l : List Nat), ∀ w ∈ fields l, ∀ c ∈ w, isSpaceN c = false
  | [], w, hw, c, hc => by
    simp [fields] at hw; subst hw; simp at hc
  | d :: cs, w, hw, c, hc => by
    by_cases h : isSpaceN d
    · simp only [fields, h, if_pos] at hw
      rcases List.mem_cons.mp hw with h1 | h1
      · subst h1; simp at hc
      · exact mem_fields_not_space cs w h1 c hc
    · rcases hf : fields cs with _ | ⟨w0, ws0⟩
      · exact absurd hf (fields_ne_nil cs)
      · simp only [fields, h, if_neg, hf] at hw
        rcases List.mem_cons.mp hw with h1 | h1
        · subst h1
          rcases List.mem_cons.mp hc with h2 | h2
          · subst h2; simpa using h
          · exact mem_fields_not_space cs w0
              (by rw [hf]; exact List.mem_cons_self w0 ws0) c h2
        · exact mem_fields_not_space cs w
            (by rw [hf]; exact List.mem_cons_of_mem w0 h1) c hc

theorem fields_append :
    ∀ (w rest : List Nat) (h : List Nat) (hs : List (List Nat)),
      (∀ c ∈ w, isSpaceN c = false) → fields rest = h :: hs →
      fields (w ++ rest) = (w ++ h) :: hs
  | [], rest, h, hs, _, hrest => by simpa using hrest
  | c :: w, rest, h, hs, hw, hrest => by
    have hc : isSpaceN c = false := hw c (List.mem_cons_self c w)
    have ih := fields_append w rest h hs
      (fun d hd => hw d (List.mem_cons_of_mem c hd)) hrest
    simp only [List.cons_append, fields, hc, Bool.false_eq_true, if_false,
      List.append_eq, ih]

theorem wordsOf_joinWords :
    ∀ ws : List (List Nat),
      (∀ w ∈ ws, w ≠ []) → (∀ w ∈ ws, ∀ c ∈ w, isSpaceN c = false) →
      wordsOf (joinWords ws) = ws
  | [], _, _ => by simp [joinWords, wordsOf, fields]
  | [w], h1, h2 => by
    have hw : fields (w ++ []) = (w ++ []) :: [] :=
      fields_append w [] [] [] (h2 w (List.mem_cons_self w [])) (by simp [fields])
    simp only [joinWords]
    rw [show w = w ++ [] from (List.append_nil w).symm, wordsOf, hw]
    simp [h1 w (List.mem_cons_self w [])]
  | w :: v :: vs, h1, h2 => by
    have ih := wordsOf_joinWords (v :: vs)
      (fun u hu => h1 u (List.mem_cons_of_mem w hu))
      (fun u hu => h2 u (List.mem_cons_of_mem w hu))
    have hsp : isSpaceN 32 = true := by decide
    have hfj : fields (32 :: joinWords (v :: vs)) = [] :: fields (joinWords (v :: vs)) := by
      simp [fields, hsp]
    have hw : fields (w ++ 32 :: joinWords (v :: vs))
        = (w ++ []) :: fields (joinWords (v :: vs)) :=
      fields_append w _ [] _ (h2 w (List.mem_cons_self w _)) hfj
    have hjw : joinWords (w :: v :: vs) = w ++ 32 :: joinWords (v :: vs) := rfl
    rw [hjw, wordsOf, hw, List.append_nil, List.filter_cons_of_pos]
    · rw [show (fields (joinWords (v :: vs))).filter (fun u => !u.isEmpty)
            = wordsOf (joinWords (v :: vs)) from rfl, ih]
    · simp [h1 w (List.mem_cons_self w _)]

theorem mem_joinWords :
    ∀ (ws : List (List Nat)), ∀ c ∈ joinWords ws, c = 32 ∨ ∃ w ∈ ws, c ∈ w
  | [], c, hc => by simp [joinWords] at hc
  | [w], c, hc => by
    right; exact ⟨w, List.mem_cons_self w [], by simpa [joinWords] using hc⟩
  | w :: v :: vs, c, hc => by
    have hjw : joinWords (w :: v :: vs) = w ++ 32 :: joinWords (v :: vs) := rfl
    rw [hjw] at hc
    rcases List.mem_append.mp hc with h1 | h1
    · exact Or.inr ⟨w, List.mem_cons_self w _, h1⟩
    · rcases List.mem_cons.mp h1 with h2 | h2
      · exact Or.inl h2
      · rcases mem_joinWords (v :: vs) c h2 with h3 | ⟨u, hu, hcu⟩
        · exact Or.inl h3
        · exact Or.inr ⟨u, List.mem_cons_of_mem w hu, hcu⟩

theorem map_id_of {f : Nat → Nat} :
    ∀ l : List Nat, (∀ c ∈ l, f c = c) → l.map f = l
  | [], _ => rfl
  | c :: cs, h => by
    rw [List.map_cons, h c (List.mem_cons_self c cs),
      map_id_of cs (fun d hd => h d (List.mem_cons_of_mem c hd))]

theorem filter_id_of {p : Nat → Bool} :
    ∀ l : List Nat, (∀ c ∈ l, p c = true) → l.filter p = l
  | [], _ => rfl
  | c :: cs, h => by
    rw [List.filter_cons_of_pos (h c (List.mem_cons_self c cs)),
      filter_id_of cs (fun d hd => h d (List.mem_cons_of_mem c hd))]

theorem preprocessCore_idem (l : List Nat) :
    preprocessCore (preprocessCore l) = preprocessCore l := by
  have hw1 : ∀ w ∈ wordsOf (stripNonAlpha (l.map lowerN)), w ≠ [] := by
    intro w hw
    have := List.of_mem_filter hw
    simpa using this
  have hwf : ∀ w ∈ wordsOf (stripNonAlpha (l.map lowerN)),
      w ∈ fields (stripNonAlpha (l.map lowerN)) :=
    fun w hw => List.mem_of_mem_filter hw
  have hw2 : ∀ w ∈ wordsOf (stripNonAlpha (l.map lowerN)), ∀ c ∈ w,
      isSpaceN c = false :=
    fun w hw c hc => mem_fields_not_space _ w (hwf w hw) c hc
  have hw3 : ∀ w ∈ wordsOf (stripNonAlpha (l.map lowerN)), ∀ c ∈ w,
      isLowerAlphaN c = true := by
    intro w hw c hc
    have hmem : c ∈ stripNonAlpha (l.map lowerN) :=
      mem_fields_mem _ w (hwf w hw) c hc
    have hkeep := List.of_mem_filter hmem
    have hns := hw2 w hw c hc
    simp only [hns, Bool.or_false] at hkeep
    exact hkeep
  have hchars : ∀ c ∈ joinWords (wordsOf (stripNonAlpha (l.map lowerN))),
      isLowerAlphaN c = true ∨ c = 32 := by
    intro c hc
    rcases mem_joinWords _ c hc with h | ⟨w, hw, hcw⟩
    · exact Or.inr h
    · exact Or.inl (hw3 w hw c hcw)
  show preprocessCore (joinWords (wordsOf (stripNonAlpha (l.map lowerN)))) = _
  unfold preprocessCore
  rw [map_id_of _ (by
    intro c hc
    rcases hchars c hc with h | h
    · have h97 : 97 ≤ c := by
        have := h
        simp [isLowerAlphaN] at this
        omega
      simp only [lowerN, if_neg (by omega : ¬(65 ≤ c ∧ c ≤ 90))]
    · subst h; decide)]
  rw [show stripNonAlpha (joinWords (wordsOf (stripNonAlpha (l.map lowerN))))
        = joinWords (wordsOf (stripNonAlpha (l.map lowerN))) from
    filter_id_of _ (by
      intro c hc
      rcases hchars c hc with h | h
      · simp [h]
      · subst h; decide)]
  rw [wordsOf_joinWords _ hw1 hw2]

/-- C9: `preprocess_text` is idempotent, and null input yields the empty
string without an exception. -/
theorem preprocess_text_idempotent (t : Option (List Nat)) :
    preprocess_text (some (preprocess_text t)) = preprocess_text t ∧
    preprocess_text none = [] := by
  refine ⟨?_, rfl⟩
  cases t with
  | none => show preprocessCore [] = []; rfl
  | some l => exact preprocessCore_idem l

/-- Result record of `identify_themes`: matched theme labels in taxonomy
declaration order, the single primary theme, and the keywords that
triggered any match. -/
structure ThemeResult where
  themes : List String
  primary_theme : String
  matched_keywords : List String
deriving DecidableEq

/-- Decides whether `pat` starts the list `l`. -/
def isPrefixN : List Nat → List Nat → Bool
  | [], _ => true
  | _ :: _, [] => false
  | a :: as, b :: bs => a == b && isPrefixN as bs

/-- Decides whether `pat` occurs as a contiguous substring of `l`. -/
def containsSub (pat : List Nat) : List Nat → Bool
  | [] => isPrefixN pat []
  | c :: rest => isPrefixN pat (c :: rest) || containsSub pat rest

/-- Modelled from the spec: the static theme taxonomy of `theme_analyzer.py`
(absent from the provided sources) — theme labels in declaration order, each
with its trigger keywords, as named in the spec and exercised by the test
suite. -/
def theme_keywords : List (String × List String) := [
  ("Account Access Issues", ["login", "password", "authentication", "access", "account"]),
  ("Transaction Performance", ["transfer", "slow", "transaction", "payment", "deposit"]),
  ("Technical Issues", ["crash", "bug", "error", "freeze", "update"]),
  ("User Interface & Experience", ["interface", "design", "layout", "confusing"]),
  ("Customer Support", ["support", "service", "response", "help"]),
  ("Feature Requests", ["feature", "add", "request", "improve"]),
  ("Security & Privacy", ["secure", "security", "privacy", "fraud", "scam"])]

/-- The keywords of one taxonomy entry that match the preprocessed text as
substrings. -/
def matchedFor (kws : List String) (processed : List Nat) : List String :=
  kws.filter (fun k => containsSub (kwCodes k) processed)

/-- Label and keyword-match count for every taxonomy entry, in declaration
order. -/
def themeCountPairs (tax : List (String × List String)) (processed : List Nat) :
    List (String × Nat) :=
  tax.map (fun p => (p.1, (matchedFor p.2 processed).length))

/-- The taxonomy entries with at least one matching keyword, each paired
with its matching keywords, in declaration order. -/
def matchedThemes (tax : List (String × List String)) (processed : List Nat) :
    List (String × List String) :=
  (tax.map (fun p => (p.1, matchedFor p.2 processed))).filter (fun p => !p.2.isEmpty)

/-- Left fold selecting the pair with the largest count; a later pair only
replaces the current best on a strictly larger count, so the earliest
maximum wins. -/
def bestOf : String × Nat → List (String × Nat) → String × Nat
  | best, [] => best
  | best, p :: ps => bestOf (if best.2 < p.2 then p else best) ps

/-- Removes later duplicates from a list of strings, keeping first
occurrences. -/
def dedupStr : List String → List String
  | [] => []
  | s :: rest => s :: (dedupStr rest).filter (fun t => t ≠ s)

/-- Modelled from the spec: `ThemeAnalyzer.identify_themes`. Null or empty
text gives the `Unknown` sentinel result; otherwise the text is
preprocessed, every taxonomy entry counts its matching keywords, matched
themes are listed in declaration order, and the primary theme is the
matched theme with the highest count (earliest declared wins ties), or
`Other` when nothing matched. -/
def identify_themes (tax : List (String × List String)) :
    Option (List Nat) → ThemeResult
  | none => ⟨[], "Unknown", []⟩
  | some l =>
    if l = [] then ⟨[], "Unknown", []⟩
    else
      ⟨(matchedThemes tax (preprocessCore l)).map (fun p => p.1),
       (bestOf ("Other", 0) (themeCountPairs tax (preprocessCore l))).1,
       dedupStr ((matchedThemes tax (preprocessCore l)).foldr
         (fun p acc => p.2 ++ acc) [])⟩

/-- Number of keywords of taxonomy entry `i` matching in text `l` after
preprocessing. -/
def themeMatchCount (tax : List (String × List String)) (l : List Nat)
    (i : Fin tax.length) : Nat :=
  (matchedFor (tax.get i).2 (preprocessCore l)).length

end ThemeAnalyzer


namespace ThemeAnalyzer

theorem bestOf_le (m : String × Nat) :
    ∀ ms : List (String × Nat), (∀ p ∈ ms, p.2 ≤ m.2) → bestOf m ms = m
  | [], _ => rfl
  | p :: ps, h => by
    have hp : p.2 ≤ m.2 := h p (List.mem_cons_self p ps)
    show bestOf (if m.2 < p.2 then p else m) ps = m
    rw [if_neg (by omega)]
    exact bestOf_le m ps (fun q hq => h q (List.mem_cons_of_mem p hq))

theorem get_zero_my {α : Type} (a : α) (l : List α) (h : 0 < (a :: l).length) :
    (a :: l).get ⟨0, h⟩ = a := rfl

theorem get_succ_my {α : Type} (a : α) (l : List α) (i : Nat)
    (h : i + 1 < (a :: l).length) :
    (a :: l).get ⟨i + 1, h⟩ = l.get ⟨i, Nat.lt_of_succ_lt_succ h⟩ := rfl

theorem bestOf_spec :
    ∀ (ms : List (String × Nat)) (m : String × Nat),
      ∃ i, ∃ hi : i < (m :: ms).length,
        bestOf m ms = (m :: ms).get ⟨i, hi⟩ ∧
        (∀ j (hj : j < (m :: ms).length),
          ((m :: ms).get ⟨j, hj⟩).2 ≤ ((m :: ms).get ⟨i, hi⟩).2) ∧
        (∀ j (hj : j < (m :: ms).length), j < i →
          ((m :: ms).get ⟨j, hj⟩).2 < ((m :: ms).get ⟨i, hi⟩).2)
  | [], m => by
    refine ⟨0, by simp, rfl, ?_, ?_⟩
    · intro j hj
      have hj0 : j = 0 := by simp at hj; omega
      subst hj0
      exact le_refl _
    · intro j hj hlt
      omega
  | p :: ps, m => by
    by_cases hmp : m.2 < p.2
    · obtain ⟨i, hi, heq, hmax, hfirst⟩ := bestOf_spec ps p
      have hI : i + 1 < (m :: p :: ps).length := by
        simp only [List.length_cons] at hi ⊢; omega
      have hhead : p.2 ≤ ((p :: ps).get ⟨i, hi⟩).2 := by
        have h0 := hmax 0 (by simp)
        rw [get_zero_my] at h0
        exact h0
      refine ⟨i + 1, hI, ?_, ?_, ?_⟩
      · show bestOf (if m.2 < p.2 then p else m) ps = _
        rw [if_pos hmp, get_succ_my]
        exact heq
      · intro j hj
        rcases j with _ | j
        · rw [get_zero_my, get_succ_my]
          omega
        · rw [get_succ_my, get_succ_my]
          exact hmax j (by simp only [List.length_cons] at hj ⊢; omega)
      · intro j hj hlt
        rcases j with _ | j
        · rw [get_zero_my, get_succ_my]
          omega
        · rw [get_succ_my, get_succ_my]
          exact hfirst j (by simp only [List.length_cons] at hj ⊢; omega) (by omega)
    · obtain ⟨i, hi, heq, hmax, hfirst⟩ := bestOf_spec ps m
      have hpm : p.2 ≤ m.2 := le_of_not_lt hmp
      have hstep : bestOf m (p :: ps) = bestOf m ps := by
        show bestOf (if m.2 < p.2 then p else m) ps = bestOf m ps
        rw [if_neg hmp]
      rcases i with _ | k
      · have hbm : ((m :: ps).get ⟨0, hi⟩).2 = m.2 := by rw [get_zero_my]
        refine ⟨0, by simp, ?_, ?_, ?_⟩
        · rw [hstep, heq]
          rfl
        · intro j hj
          rcases j with _ | j
          · exact le_refl _
          rcases j with _ | j
          · rw [get_succ_my, get_zero_my, get_zero_my]
            exact hpm
          · rw [get_succ_my, get_succ_my, get_zero_my]
            have hj2 : j + 1 < (m :: ps).length := by
              simp only [List.length_cons] at hj ⊢; omega
            have h2 := hmax (j + 1) hj2
            rw [get_succ_my, get_zero_my] at h2
            exact h2
        · intro j hj hlt
          omega
      · have hk : k + 2 < (m :: p :: ps).length := by
          simp only [List.length_cons] at hi ⊢; omega
        have hvk : ∀ (h2 : k + 2 < (m :: p :: ps).length),
            (m :: p :: ps).get ⟨k + 2, h2⟩ = (m :: ps).get ⟨k + 1, hi⟩ := by
          intro h2
          rw [get_succ_my, get_succ_my, get_succ_my]
        have hm2 : m.2 ≤ ((m :: ps).get ⟨k + 1, hi⟩).2 := by
          have h2 := hmax 0 (by simp)
          rw [get_zero_my] at h2
          exact h2
        have hm2s : m.2 < ((m :: ps).get ⟨k + 1, hi⟩).2 := by
          have h2 := hfirst 0 (by simp) (by omega)
          rw [get_zero_my] at h2
          exact h2
        refine ⟨k + 2, hk, ?_, ?_, ?_⟩
        · rw [hstep, heq, hvk]
        · intro j hj
          rw [hvk]
          rcases j with _ | j
          · rw [get_zero_my]
            exact hm2
          rcases j with _ | j
          · rw [get_succ_my, get_zero_my]
            omega
          · rw [get_succ_my, get_succ_my]
            have hj2 : j + 1 < (m :: ps).length := by
              simp only [List.length_cons] at hj ⊢; omega
            have h2 := hmax (j + 1) hj2
            rw [get_succ_my] at h2
            exact h2
        · intro j hj hlt
          rw [hvk]
          rcases j with _ | j
          · rw [get_zero_my]
            exact hm2s
          rcases j with _ | j
          · rw [get_succ_my, get_zero_my]
            omega
          · rw [get_succ_my, get_succ_my]
            have hj2 : j + 1 < (m :: ps).length := by
              simp only [List.length_cons] at hj ⊢; omega
            have h2 := hfirst (j + 1) hj2 (by omega)
            rw [get_succ_my] at h2
            exact h2

theorem firstmax_unique {L : List (String × Nat)} {i k : Nat}
    (hi : i < L.length) (hk : k < L.length)
    (hmaxi : ∀ j (hj : j < L.length), (L.get ⟨j, hj⟩).2 ≤ (L.get ⟨i, hi⟩).2)
    (hfi : ∀ j (hj : j < L.length), j < i → (L.get ⟨j, hj⟩).2 < (L.get ⟨i, hi⟩).2)
    (hmaxk : ∀ j (hj : j < L.length), (L.get ⟨j, hj⟩).2 ≤ (L.get ⟨k, hk⟩).2)
    (hfk : ∀ j (hj : j < L.length), j < k → (L.get ⟨j, hj⟩).2 < (L.get ⟨k, hk⟩).2) :
    i = k := by
  rcases lt_trichotomy i k with h | h | h
  · have h1 := hfk i hi h
    have h2 := hmaxi k hk
    omega
  · exact h
  · have h1 := hfi k hk h
    have h2 := hmaxk i hi
    omega

theorem get_map_pair {α β : Type} (f : α → β) :
    ∀ (l : List α) (i : Nat) (h1 : i < (l.map f).length) (h2 : i < l.length),
      (l.map f).get ⟨i, h1⟩ = f (l.get ⟨i, h2⟩)
  | [], i, h1, _ => by simp at h1
  | a :: l, 0, _, _ => rfl
  | a :: l, i + 1, h1, h2 =>
    get_map_pair f l i (by simpa using h1) (by simpa using h2)

end ThemeAnalyzer

namespace ThemeAnalyzer

/-- C1: for non-empty text, `identify_themes` picks as `primary_theme` the
theme with the highest keyword-match count, ties broken by taxonomy
declaration order (earliest declared wins); when no keyword matches,
`primary_theme` is `Other`. -/
theorem identify_themes_primary_spec (tax : List (String × List String))
    (l : List Nat) (hl : l ≠ []) :
    (∀ i : Fin tax.length,
        1 ≤ themeMatchCount tax l i →
        (∀ j : Fin tax.length, themeMatchCount tax l j ≤ themeMatchCount tax l i) →
        (∀ j : Fin tax.length, (j : Nat) < (i : Nat) →
          themeMatchCount tax l j < themeMatchCount tax l i) →
        (identify_themes tax (some l)).primary_theme = (tax.get i).1) ∧
    ((∀ j : Fin tax.length, themeMatchCount tax l j = 0) →
      (identify_themes tax (some l)).primary_theme = "Other") := by
  have hprim : (identify_themes tax (some l)).primary_theme
      = (bestOf ("Other", 0) (themeCountPairs tax (preprocessCore l))).1 := by
    simp [identify_themes, hl]
  have hlen : (themeCountPairs tax (preprocessCore l)).length = tax.length := by
    simp [themeCountPairs]
  have hget : ∀ (k : Nat) (hk1 : k < (themeCountPairs tax (preprocessCore l)).length)
      (hk2 : k < tax.length),
      (themeCountPairs tax (preprocessCore l)).get ⟨k, hk1⟩
        = ((tax.get ⟨k, hk2⟩).1, themeMatchCount tax l ⟨k, hk2⟩) := by
    intro k hk1 hk2
    exact get_map_pair (fun p : String × List String =>
      (p.1, (matchedFor p.2 (preprocessCore l)).length)) tax k
      (by simpa [themeCountPairs] using hk1) hk2
  constructor
  · intro i hpos hmax hfirst
    obtain ⟨i0, hi0, heq, hmax0, hfirst0⟩ :=
      bestOf_spec (themeCountPairs tax (preprocessCore l)) ("Other", 0)
    have hI : (i : Nat) + 1
        < (("Other", 0) :: themeCountPairs tax (preprocessCore l)).length := by
      simp only [List.length_cons, hlen]
      omega
    have hvalL : ∀ (k : Nat) (hk2 : k < tax.length)
        (hk1 : k + 1 < (("Other", 0) :: themeCountPairs tax (preprocessCore l)).length),
        (("Other", 0) :: themeCountPairs tax (preprocessCore l)).get ⟨k + 1, hk1⟩
          = ((tax.get ⟨k, hk2⟩).1, themeMatchCount tax l ⟨k, hk2⟩) := by
      intro k hk2 hk1
      rw [get_succ_my]
      exact hget k _ hk2
    have hmaxI : ∀ j (hj : j < (("Other", 0) :: themeCountPairs tax (preprocessCore l)).length),
        ((("Other", 0) :: themeCountPairs tax (preprocessCore l)).get ⟨j, hj⟩).2
          ≤ ((("Other", 0) :: themeCountPairs tax (preprocessCore l)).get
              ⟨(i : Nat) + 1, hI⟩).2 := by
      intro j hj
      rw [hvalL (i : Nat) i.isLt hI]
      rcases j with _ | j
      · rw [get_zero_my]
        exact Nat.zero_le _
      · have hj2 : j < tax.length := by
          simp only [List.length_cons, hlen] at hj
          omega
        rw [hvalL j hj2 hj]
        exact hmax ⟨j, hj2⟩
    have hfirstI : ∀ j (hj : j < (("Other", 0) :: themeCountPairs tax (preprocessCore l)).length),
        j < (i : Nat) + 1 →
        ((("Other", 0) :: themeCountPairs tax (preprocessCore l)).get ⟨j, hj⟩).2
          < ((("Other", 0) :: themeCountPairs tax (preprocessCore l)).get
              ⟨(i : Nat) + 1, hI⟩).2 := by
      intro j hj hlt
      rw [hvalL (i : Nat) i.isLt hI]
      rcases j with _ | j
      · rw [get_zero_my]
        show 0 < themeMatchCount tax l i
        omega
      · have hj2 : j < tax.length := by
          simp only [List.length_cons, hlen] at hj
          omega
        rw [hvalL j hj2 hj]
        exact hfirst ⟨j, hj2⟩ (show j < (i : Nat) by omega)
    have huniq : i0 = (i : Nat) + 1 :=
      firstmax_unique hi0 hI hmax0 hfirst0 hmaxI hfirstI
    subst huniq
    rw [hprim, heq, hvalL (i : Nat) i.isLt hi0]
  · intro h0
    rw [hprim]
    have hall : ∀ p ∈ themeCountPairs tax (preprocessCore l), p.2 ≤ ("Other", 0).2 := by
      intro p hp
      obtain ⟨a, ha, hfa⟩ := List.mem_map.mp hp
      obtain ⟨n, hn⟩ := List.mem_iff_get.mp ha
      have hcount := h0 n
      rw [themeMatchCount, hn] at hcount
      rw [← hfa]
      simp only [hcount]
      exact Nat.le_refl 0
    rw [bestOf_le _ _ hall]

/-- C2: null and empty input both give the `Unknown` sentinel result with
empty theme and keyword lists, and `Unknown` is never the primary theme of
a non-empty input (non-matching non-empty text gets `Other` instead). -/
theorem identify_themes_degenerate :
    identify_themes theme_keywords none = ⟨[], "Unknown", []⟩ ∧
    identify_themes theme_keywords (some []) = ⟨[], "Unknown", []⟩ ∧
    ∀ l : List Nat, l ≠ [] →
      (identify_themes theme_keywords (some l)).primary_theme ≠ "Unknown" := by
  refine ⟨rfl, rfl, ?_⟩
  intro l hl
  have hprim : (identify_themes theme_keywords (some l)).primary_theme
      = (bestOf ("Other", 0) (themeCountPairs theme_keywords (preprocessCore l))).1 := by
    simp [identify_themes, hl]
  rw [hprim]
  obtain ⟨i0, hi0, heq, -, -⟩ :=
    bestOf_spec (themeCountPairs theme_keywords (preprocessCore l)) ("Other", 0)
  rw [heq]
  have hmem : (("Other", 0) :: themeCountPairs theme_keywords (preprocessCore l)).get
      ⟨i0, hi0⟩ ∈ ("Other", 0) :: themeCountPairs theme_keywords (preprocessCore l) :=
    List.get_mem _ _ _
  have hlabels : ∀ q ∈ ("Other", 0) :: themeCountPairs theme_keywords (preprocessCore l),
      q.1 ≠ "Unknown" := by
    intro q hq
    rcases List.mem_cons.mp hq with h | h
    · rw [h]
      decide
    · obtain ⟨a, ha, hfa⟩ := List.mem_map.mp h
      rw [← hfa]
      have : ∀ a ∈ theme_keywords, a.1 ≠ "Unknown" := by decide
      exact this a ha
  exact hlabels _ hmem

theorem lowerN_upperN (n : Nat) : lowerN (upperN n) = lowerN n := by
  simp only [lowerN, upperN]
  split_ifs <;> omega

theorem lowerN_lowerN (n : Nat) : lowerN (lowerN n) = lowerN n := by
  simp only [lowerN]
  split_ifs <;> omega

theorem map_comp_lower (f : Nat → Nat) (hf : ∀ n, lowerN (f n) = lowerN n) :
    ∀ l : List Nat, (l.map f).map lowerN = l.map lowerN
  | [] => rfl
  | c :: cs => by
    rw [List.map_cons, List.map_cons, List.map_cons, hf, map_comp_lower f hf cs]

theorem identify_themes_congr (tax : List (String × List String))
    {l l2 : List Nat} (h0 : l = [] ↔ l2 = [])
    (hp : preprocessCore l = preprocessCore l2) :
    identify_themes tax (some l) = identify_themes tax (some l2) := by
  by_cases hl : l = []
  · have hl2 : l2 = [] := h0.mp hl
    simp [identify_themes, hl, hl2]
  · have hl2 : l2 ≠ [] := fun h => hl (h0.mpr h)
    simp [identify_themes, hl, hl2, hp]

/-- C3: `identify_themes` is invariant under changing the letter case of
the input text — mapping the text to all-uppercase or all-lowercase leaves
all three result fields unchanged. -/
theorem identify_themes_case_invariant (tax : List (String × List String))
    (l : List Nat) :
    identify_themes tax (some (l.map upperN)) = identify_themes tax (some l) ∧
    identify_themes tax (some (l.map lowerN)) = identify_themes tax (some l) := by
  constructor
  · refine identify_themes_congr tax (by simp) ?_
    show preprocessCore (l.map upperN) = preprocessCore l
    unfold preprocessCore
    rw [map_comp_lower upperN lowerN_upperN l]
  · refine identify_themes_congr tax (by simp) ?_
    show preprocessCore (l.map lowerN) = preprocessCore l
    unfold preprocessCore
    rw [map_comp_lower lowerN lowerN_lowerN l]

/-- Witness for C1: on the spec example text the primary theme is
`Account Access Issues` (the first taxonomy entry holds the maximal match
count 5), and on non-matching non-empty text it is `Other`. -/
theorem identify_themes_primary_witness :
    (identify_themes theme_keywords
        (some (kwCodes "login password authentication access account"))).primary_theme
      = "Account Access Issues" ∧
    (identify_themes theme_keywords (some (kwCodes "xyz abc"))).primary_theme
      = "Other" := by
  constructor
  · exact (identify_themes_primary_spec theme_keywords
      (kwCodes "login password authentication access account") (by decide)).1
      ⟨0, by decide⟩ (by decide) (by decide) (by decide)
  · exact (identify_themes_primary_spec theme_keywords (kwCodes "xyz abc")
      (by decide)).2 (by decide)

/-- Witness for C2: a concrete non-empty text never receives the
`Unknown` sentinel. -/
theorem identify_themes_degenerate_witness :
    (identify_themes theme_keywords (some (kwCodes "great app"))).primary_theme
      ≠ "Unknown" :=
  identify_themes_degenerate.2.2 (kwCodes "great app") (by decide)

end ThemeAnalyzer

namespace SentimentAnalyzer

/-- Raw VADER polarity scores for a text: three component magnitudes and a
signed compound score. The VADER lexicon itself is an external library, so
analyses are parameterised by the score function it provides. -/
structure VaderScores where
  pos : ℚ
  neg : ℚ
  neu : ℚ
  compound : ℚ
deriving DecidableEq

/-- Result record of `analyze_text` for the lexicon method: classified
label, exposed confidence score, and the raw VADER sub-scores kept as
auxiliary fields. -/
structure SentimentResult where
  label : String
  score : ℚ
  pos : ℚ
  neg : ℚ
  neu : ℚ
  compound : ℚ
deriving DecidableEq

/-- The degenerate-input result: NEUTRAL with score zero and zero/neutral
sub-scores. -/
def neutralSentiment : SentimentResult := ⟨"NEUTRAL", 0, 0, 0, 1, 0⟩

/-- A text is blank when every character is whitespace; this covers empty
and whitespace-only strings. -/
def isBlank (l : List Nat) : Bool := l.all isSpaceN

/-- Modelled from the spec: the fixed classification thresholds of the
lexicon method — compound at least 0.05 is POSITIVE, at most -0.05 is
NEGATIVE, otherwise NEUTRAL. -/
def vaderLabel (c : ℚ) : String :=
  if 5/100 ≤ c then "POSITIVE"
  else if c ≤ -(5/100) then "NEGATIVE"
  else "NEUTRAL"

/-- Modelled from the spec: `SentimentAnalyzer.analyze_text` for the
lexicon (vader) method, parameterised by the external VADER score
function. Null, empty or whitespace-only input returns the neutral result;
otherwise the label comes from the compound thresholds and the exposed
score is the absolute compound. -/
def analyze_text (vader : List Nat → VaderScores) :
    Option (List Nat) → SentimentResult
  | none => neutralSentiment
  | some l =>
    if isBlank l then neutralSentiment
    else
      ⟨vaderLabel (vader l).compound, |(vader l).compound|,
       (vader l).pos, (vader l).neg, (vader l).neu, (vader l).compound⟩

/-- Modelled from the spec: `SentimentAnalyzer.analyze_dataframe` — one row
per input row, in order; each output row keeps the whole original row and
appends the per-row `analyze_text` result as the method-qualified label and
score columns. Rows are pairs of nullable text and the remaining columns. -/
def analyze_dataframe {α : Type} (vader : List Nat → VaderScores)
    (rows : List (Option (List Nat) × α)) :
    List ((Option (List Nat) × α) × SentimentResult) :=
  rows.map (fun r => (r, analyze_text vader r.1))

/-- C5: for the lexicon method on non-blank text, the label follows the
fixed compound thresholds (0.05 and -0.05), and the exposed score is the
absolute compound, lying in the unit interval whenever the compound is in
the interval from -1 to 1. -/
theorem analyze_text_thresholds (vader : List Nat → VaderScores)
    (l : List Nat) (hb : isBlank l = false)
    (h1 : -1 ≤ (vader l).compound) (h2 : (vader l).compound ≤ 1) :
    ((5/100 : ℚ) ≤ (vader l).compound →
      (analyze_text vader (some l)).label = "POSITIVE") ∧
    ((vader l).compound ≤ -(5/100) →
      (analyze_text vader (some l)).label = "NEGATIVE") ∧
    (-(5/100) < (vader l).compound → (vader l).compound < 5/100 →
      (analyze_text vader (some l)).label = "NEUTRAL") ∧
    (analyze_text vader (some l)).score = |(vader l).compound| ∧
    0 ≤ (analyze_text vader (some l)).score ∧
    (analyze_text vader (some l)).score ≤ 1 := by
  have hres : analyze_text vader (some l)
      = ⟨vaderLabel (vader l).compound, |(vader l).compound|,
         (vader l).pos, (vader l).neg, (vader l).neu, (vader l).compound⟩ := by
    simp [analyze_text, hb]
  rw [hres]
  refine ⟨?_, ?_, ?_, rfl, abs_nonneg _, abs_le.mpr ⟨h1, h2⟩⟩
  · intro hc
    simp [vaderLabel, hc]
  · intro hc
    have hneg : ¬ (5/100 : ℚ) ≤ (vader l).compound := by
      intro h
      have : (5/100 : ℚ) ≤ -(5/100) := le_trans h hc
      norm_num at this
    simp [vaderLabel, hneg, hc]
  · intro hlo hhi
    have hneg : ¬ (5/100 : ℚ) ≤ (vader l).compound := not_le.mpr hhi
    have hneg2 : ¬ (vader l).compound ≤ -(5/100) := not_le.mpr hlo
    simp [vaderLabel, hneg, hneg2]

/-- C6: for the lexicon method, null, empty and whitespace-only input all
produce the neutral result — label NEUTRAL, score zero, zero/neutral
sub-scores — for any VADER score function, hence without evaluating it. -/
theorem analyze_text_degenerate (vader : List Nat → VaderScores) :
    analyze_text vader none = neutralSentiment ∧
    analyze_text vader (some []) = neutralSentiment ∧
    (∀ l : List Nat, (∀ c ∈ l, isSpaceN c = true) →
      analyze_text vader (some l) = neutralSentiment) ∧
    neutralSentiment = ⟨"NEUTRAL", 0, 0, 0, 1, 0⟩ := by
  refine ⟨rfl, rfl, ?_, rfl⟩
  intro l hl
  have hb : isBlank l = true := List.all_eq_true.mpr hl
  simp [analyze_text, hb]

/-- A constant VADER score function used to instantiate the sentiment
theorems on concrete inputs. -/
def constVader : List Nat → VaderScores := fun _ => ⟨1/10, 0, 9/10, 1/2⟩

/-- Witness for C5: on a concrete non-blank text with compound one half,
the label is POSITIVE and the exposed score is one half. -/
theorem analyze_text_thresholds_witness :
    (analyze_text constVader (some (kwCodes "good app"))).label = "POSITIVE" ∧
    (analyze_text constVader (some (kwCodes "good app"))).score = 1/2 := by
  have h := analyze_text_thresholds constVader (kwCodes "good app")
    (by decide) (by norm_num [constVader]) (by norm_num [constVader])
  refine ⟨h.1 (by norm_num [constVader]), ?_⟩
  rw [h.2.2.2.1]
  norm_num [constVader]

/-- Witness for C6: a concrete whitespace-only text maps to the neutral
result. -/
theorem analyze_text_degenerate_witness :
    analyze_text constVader (some [32, 9, 10]) = neutralSentiment :=
  (analyze_text_degenerate constVader).2.2.1 [32, 9, 10] (by decide)

end SentimentAnalyzer

namespace ThemeAnalyzer

/-- Removes later duplicate words, keeping first occurrences. -/
def dedupW : List (List Nat) → List (List Nat)
  | [] => []
  | w :: rest => w :: (dedupW rest).filter (fun u => u ≠ w)

/-- Number of corpus documents containing a term. -/
def docFreq (docs : List (List (List Nat))) (t : List Nat) : Nat :=
  (docs.filter (fun d => decide (t ∈ d))).length

/-- Occurrences of a term in one document. -/
def termCount (d : List (List Nat)) (t : List Nat) : Nat :=
  (d.filter (fun u => decide (u = t))).length

/-- Modelled from the spec: a corpus-level term weight — term frequency
times a smoothed inverse document frequency (a log-free rational variant of
the TF-IDF weighting; the spec fixes only the TF-IDF family, not the exact
smoothing). -/
def tfidfWeight (docs : List (List (List Nat))) (d : List (List Nat))
    (t : List Nat) : ℚ :=
  (termCount d t : ℚ) * ((docs.length + 1 : ℚ) / ((docFreq docs t : ℚ) + 1))

/-- Lexicographic order on codepoint lists, the deterministic tie-break of
the keyword ranking. -/
def ltLexN : List Nat → List Nat → Bool
  | [], [] => false
  | [], _ :: _ => true
  | _ :: _, [] => false
  | a :: as, b :: bs => decide (a < b) || (decide (a = b) && ltLexN as bs)

/-- Inserts a term into a list ranked by weight descending with lexical
tie-break ascending. -/
def rankInsert (wf : List Nat → ℚ) (t : List Nat) :
    List (List Nat) → List (List Nat)
  | [] => [t]
  | u :: us =>
    if wf u < wf t ∨ (wf u = wf t ∧ ltLexN t u = true) then t :: u :: us
    else u :: rankInsert wf t us

/-- Insertion sort by weight descending with lexical tie-break. -/
def sortRanked (wf : List Nat → ℚ) : List (List Nat) → List (List Nat)
  | [] => []
  | t :: ts => rankInsert wf t (sortRanked wf ts)

/-- Fixed cap on the vocabulary size of the extractor. -/
def maxFeatures : Nat := 1000

/-- Tokenised corpus: each text preprocessed and split into words. -/
def tfidfDocs (texts : List (List Nat)) : List (List (List Nat)) :=
  texts.map (fun t => wordsOf (preprocessCore t))

/-- Corpus vocabulary: distinct terms with document frequency at least two
(the minimum document-frequency cutoff), capped at `maxFeatures`. -/
def tfidfVocab (docs : List (List (List Nat))) : List (List Nat) :=
  ((dedupW (docs.foldr (fun d acc => d ++ acc) [])).filter
    (fun t => decide (2 ≤ docFreq docs t))).take maxFeatures

/-- Modelled from the spec: `ThemeAnalyzer.extract_keywords_tfidf` — builds
a term weighting over the whole corpus and returns, per document and in
input order, the at most `top_n` vocabulary terms present in that document,
ranked by weight with lexical tie-break; degrades to fewer or no keywords
when the corpus is too small, and never fails. -/
def extract_keywords_tfidf (texts : List (List Nat)) (top_n : Nat) :
    List (List (List Nat)) :=
  (tfidfDocs texts).map (fun d =>
    (sortRanked (tfidfWeight (tfidfDocs texts) d)
      ((tfidfVocab (tfidfDocs texts)).filter (fun t => decide (t ∈ d)))).take top_n)

theorem rankInsert_length (wf : List Nat → ℚ) (t : List Nat) :
    ∀ us : List (List Nat), (rankInsert wf t us).length = us.length + 1
  | [] => rfl
  | u :: us => by
    show (if wf u < wf t ∨ (wf u = wf t ∧ ltLexN t u = true)
        then t :: u :: us else u :: rankInsert wf t us).length = (u :: us).length + 1
    split_ifs with h
    · simp
    · simp [rankInsert_length wf t us]

theorem sortRanked_length (wf : List Nat → ℚ) :
    ∀ ts : List (List Nat), (sortRanked wf ts).length = ts.length
  | [] => rfl
  | t :: ts => by
    show (rankInsert wf t (sortRanked wf ts)).length = ts.length + 1
    rw [rankInsert_length, sortRanked_length wf ts]

theorem extract_keywords_length (texts : List (List Nat)) (top_n : Nat) :
    (extract_keywords_tfidf texts top_n).length = texts.length := by
  simp [extract_keywords_tfidf, tfidfDocs]

/-- Modelled from the spec: `ThemeAnalyzer.analyze_dataframe` — pairs every
input row, in order, with its `identify_themes` result and its TF-IDF
keyword list computed over the whole column (null text treated as empty
text for the corpus, and as null for theme identification). -/
def analyze_dataframe {α : Type} (tax : List (String × List String))
    (rows : List (Option (List Nat) × α)) :
    List ((Option (List Nat) × α) × ThemeResult × List (List Nat)) :=
  List.zipWith (fun r k => (r, identify_themes tax r.1, k)) rows
    (extract_keywords_tfidf (rows.map (fun r => r.1.getD [])) 5)

/-- C8: the extractor returns one keyword list per input document in input
order, each of length at most `top_n`. -/
theorem extract_keywords_tfidf_shape (texts : List (List Nat)) (top_n : Nat) :
    (extract_keywords_tfidf texts top_n).length = texts.length ∧
    ∀ ks ∈ extract_keywords_tfidf texts top_n, ks.length ≤ top_n := by
  refine ⟨extract_keywords_length texts top_n, ?_⟩
  intro ks hks
  obtain ⟨d, hd, hdk⟩ := List.mem_map.mp hks
  rw [← hdk, List.length_take]
  exact min_le_left _ _

/-- Witness for C8: a two-document corpus in which only the shared term
qualifies; the first document receives the single keyword, within the
`top_n` bound. -/
theorem extract_keywords_tfidf_witness : [kwCodes "banking"].length ≤ 3 :=
  (extract_keywords_tfidf_shape
    [kwCodes "banking app", kwCodes "banking transfer"] 3).2
    [kwCodes "banking"] (by decide)

theorem get_zipWith_my {α β γ : Type} (f : α → β → γ) :
    ∀ (l1 : List α) (l2 : List β) (i : Nat)
      (h : i < (List.zipWith f l1 l2).length) (h1 : i < l1.length)
      (h2 : i < l2.length),
      (List.zipWith f l1 l2).get ⟨i, h⟩ = f (l1.get ⟨i, h1⟩) (l2.get ⟨i, h2⟩)
  | [], _, i, _, h1, _ => by simp at h1
  | _ :: _, [], i, _, _, h2 => by simp at h2
  | a :: l1, b :: l2, 0, _, _, _ => rfl
  | a :: l1, b :: l2, i + 1, h, h1, h2 =>
    get_zipWith_my f l1 l2 i
      (by simp only [List.zipWith_cons_cons, List.length_cons] at h; omega)
      (by simp only [List.length_cons] at h1; omega)
      (by simp only [List.length_cons] at h2; omega)

theorem analyze_dataframe_length {α : Type} (tax : List (String × List String))
    (rows : List (Option (List Nat) × α)) :
    (analyze_dataframe tax rows).length = rows.length := by
  rw [analyze_dataframe, List.length_zipWith, extract_keywords_length]
  simp

end ThemeAnalyzer

set_option maxHeartbeats 2000000 in
/-- C4: both batch analyses preserve the table frame — same number of rows
in the same order (including the zero-row table), every original row kept
unchanged as the first component with new columns only appended — and a
null text in a row yields that row's degenerate result instead of an error
or a dropped row. -/
theorem analyze_dataframe_frame {α : Type}
    (vader : List Nat → SentimentAnalyzer.VaderScores)
    (tax : List (String × List String))
    (rows : List (Option (List Nat) × α)) :
    (SentimentAnalyzer.analyze_dataframe vader rows).length = rows.length ∧
    (ThemeAnalyzer.analyze_dataframe tax rows).length = rows.length ∧
    (rows = [] → SentimentAnalyzer.analyze_dataframe vader rows = [] ∧
      ThemeAnalyzer.analyze_dataframe tax rows = []) ∧
    (∀ i (h1 : i < (SentimentAnalyzer.analyze_dataframe vader rows).length)
        (h2 : i < rows.length),
      ((SentimentAnalyzer.analyze_dataframe vader rows).get ⟨i, h1⟩).1
          = rows.get ⟨i, h2⟩ ∧
      ((rows.get ⟨i, h2⟩).1 = none →
        ((SentimentAnalyzer.analyze_dataframe vader rows).get ⟨i, h1⟩).2
          = SentimentAnalyzer.neutralSentiment)) ∧
    (∀ i (h1 : i < (ThemeAnalyzer.analyze_dataframe tax rows).length)
        (h2 : i < rows.length),
      ((ThemeAnalyzer.analyze_dataframe tax rows).get ⟨i, h1⟩).1
          = rows.get ⟨i, h2⟩ ∧
      ((rows.get ⟨i, h2⟩).1 = none →
        ((ThemeAnalyzer.analyze_dataframe tax rows).get ⟨i, h1⟩).2.1
          = ⟨[], "Unknown", []⟩)) := by
  refine ⟨by simp [SentimentAnalyzer.analyze_dataframe],
    ThemeAnalyzer.analyze_dataframe_length tax rows,
    ?_, ?_, ?_⟩
  · intro hrows
    subst hrows
    exact ⟨rfl, rfl⟩
  · intro i h1 h2
    have hget : (SentimentAnalyzer.analyze_dataframe vader rows).get ⟨i, h1⟩
        = (rows.get ⟨i, h2⟩,
           SentimentAnalyzer.analyze_text vader (rows.get ⟨i, h2⟩).1) :=
      ThemeAnalyzer.get_map_pair
        (fun r : Option (List Nat) × α => (r, SentimentAnalyzer.analyze_text vader r.1))
        rows i h1 h2
    rw [hget]
    refine ⟨rfl, ?_⟩
    intro hnone
    show SentimentAnalyzer.analyze_text vader (rows.get ⟨i, h2⟩).1
        = SentimentAnalyzer.neutralSentiment
    rw [hnone]
    rfl
  · intro i h1 h2
    have hlen2 : i < (ThemeAnalyzer.extract_keywords_tfidf
        (rows.map (fun r => r.1.getD [])) 5).length := by
      rw [ThemeAnalyzer.extract_keywords_length]
      simpa using h2
    have h1b : i < (List.zipWith
        (fun (r : Option (List Nat) × α) (k : List (List Nat)) =>
          (r, ThemeAnalyzer.identify_themes tax r.1, k)) rows
        (ThemeAnalyzer.extract_keywords_tfidf
          (rows.map (fun r => r.1.getD [])) 5)).length := h1
    have hget := ThemeAnalyzer.get_zipWith_my _ rows _ i h1b h2 hlen2
    have hgoal : (ThemeAnalyzer.analyze_dataframe tax rows).get ⟨i, h1⟩
        = (rows.get ⟨i, h2⟩,
           ThemeAnalyzer.identify_themes tax (rows.get ⟨i, h2⟩).1,
           (ThemeAnalyzer.extract_keywords_tfidf
             (rows.map (fun r => r.1.getD [])) 5).get ⟨i, hlen2⟩) := hget
    rw [hgoal]
    refine ⟨rfl, ?_⟩
    intro hnone
    show ThemeAnalyzer.identify_themes tax (rows.get ⟨i, h2⟩).1 = ⟨[], "Unknown", []⟩
    rw [hnone]
    rfl

/-- Concrete two-row table, the second row with null text, used to witness
the frame properties. -/
def witRows : List (Option (List Nat) × Nat) :=
  [(some (kwCodes "good"), 0), (none, 1)]

/-- Witness for C4: on a concrete table whose second row has null text,
both analyses keep the row and give it the degenerate result. -/
theorem analyze_dataframe_frame_witness :
    ((SentimentAnalyzer.analyze_dataframe SentimentAnalyzer.constVader witRows).get
        ⟨1, by decide⟩).2 = SentimentAnalyzer.neutralSentiment ∧
    ((ThemeAnalyzer.analyze_dataframe ThemeAnalyzer.theme_keywords witRows).get
        ⟨1, by decide⟩).2.1 = ⟨[], "Unknown", []⟩ := by
  constructor
  · exact ((analyze_dataframe_frame SentimentAnalyzer.constVader
      ThemeAnalyzer.theme_keywords witRows).2.2.2.1 1 (by decide) (by decide)).2
      (by decide)
  · exact ((analyze_dataframe_frame SentimentAnalyzer.constVader
      ThemeAnalyzer.theme_keywords witRows).2.2.2.2 1 (by decide) (by decide)).2
      (by decide)

namespace ReviewPreprocessor

/-- Modelled from the spec: `ReviewPreprocessor.is_english` — fails closed
on null input and on text shorter than three characters; otherwise counts
the ASCII letters among the non-space characters and classifies as English
when their fraction exceeds the fixed threshold of seven tenths (stated
here by cross-multiplication to stay in whole numbers). -/
def is_english : Option (List Nat) → Bool
  | none => false
  | some l =>
    if l.length < 3 then false
    else
      decide (7 * ((l.filter (fun c => !(c == 32))).length)
        < 10 * (((l.filter (fun c => !(c == 32))).filter isAsciiAlphaN).length))

/-- C7: `is_english` is false on null input and on any text shorter than
three characters, and on text of length at least three it is true exactly
when the ASCII-letter fraction of the non-space characters exceeds seven
tenths (with the empty fraction counting as zero). -/
theorem is_english_spec :
    is_english none = false ∧
    (∀ l : List Nat, l.length < 3 → is_english (some l) = false) ∧
    (∀ l : List Nat, 3 ≤ l.length →
      (is_english (some l) = true ↔
        (7 : ℚ) / 10 <
          (((l.filter (fun c => !(c == 32))).filter isAsciiAlphaN).length : ℚ)
            / ((l.filter (fun c => !(c == 32))).length : ℚ))) := by
  refine ⟨rfl, ?_, ?_⟩
  · intro l hl
    simp [is_english, hl]
  · intro l hl
    have hnl : ¬ l.length < 3 := by omega
    rw [is_english, if_neg hnl]
    rcases Nat.eq_zero_or_pos (l.filter (fun c => !(c == 32))).length with h0 | hpos
    · have hsub : ((l.filter (fun c => !(c == 32))).filter isAsciiAlphaN).length = 0 := by
        have := List.length_filter_le isAsciiAlphaN (l.filter (fun c => !(c == 32)))
        omega
      rw [h0, hsub]
      norm_num
    · constructor
      · intro h
        have h2 : 7 * (l.filter (fun c => !(c == 32))).length
            < 10 * ((l.filter (fun c => !(c == 32))).filter isAsciiAlphaN).length :=
          of_decide_eq_true h
        rw [div_lt_div_iff₀ (by norm_num)
          (by exact_mod_cast hpos : (0 : ℚ) < ((l.filter (fun c => !(c == 32))).length : ℚ))]
        exact_mod_cast (by omega :
          7 * (l.filter (fun c => !(c == 32))).length
            < ((l.filter (fun c => !(c == 32))).filter isAsciiAlphaN).length * 10)
      · intro h
        rw [div_lt_div_iff₀ (by norm_num)
          (by exact_mod_cast hpos : (0 : ℚ) < ((l.filter (fun c => !(c == 32))).length : ℚ))] at h
        have h2 : 7 * (l.filter (fun c => !(c == 32))).length
            < ((l.filter (fun c => !(c == 32))).filter isAsciiAlphaN).length * 10 := by
          exact_mod_cast h
        exact decide_eq_true (by omega)

/-- Witness for C7: a short text is rejected, and a length-eight mostly
letter text is accepted with its fraction exceeding the threshold. -/
theorem is_english_witness :
    is_english (some (kwCodes "hi")) = false ∧
    is_english (some (kwCodes "good app")) = true := by
  constructor
  · exact is_english_spec.2.1 (kwCodes "hi") (by decide)
  · refine (is_english_spec.2.2 (kwCodes "good app") (by decide)).mpr ?_
    have e1 : (((kwCodes "good app").filter (fun c => !(c == 32))).filter
        isAsciiAlphaN).length = 7 := by decide
    have e2 : ((kwCodes "good app").filter (fun c => !(c == 32))).length = 7 := by
      decide
    rw [e1, e2]
    norm_num

end ReviewPreprocessor

namespace ReviewPreprocessor

/-- A review row: text, star rating and bank code (the duplicate key
columns) together with the remaining columns. -/
abbrev Row (α : Type) := List Nat × Int × String × α

/-- The duplicate key of a row: its review text, rating and bank code. -/
def keyOf {α : Type} (r : Row α) : List Nat × Int × String :=
  (r.1, r.2.1, r.2.2.1)

/-- One pass over the rows, dropping every row whose key was already seen
and keeping the first occurrence of each key. -/
def dedupAux {α : Type} (seen : List (List Nat × Int × String)) :
    List (Row α) → List (Row α)
  | [] => []
  | r :: rs =>
    if keyOf r ∈ seen then dedupAux seen rs
    else r :: dedupAux (keyOf r :: seen) rs

/-- Modelled from the spec and the test suite: the preprocessor method
`remove_duplicates` — drops rows duplicating the (review_text, rating,
bank_code) key of an earlier row, keeping first occurrences, and records
the number of dropped rows as the duplicates_removed statistic (returned
here as the second component). -/
def remove_duplicates {α : Type} (df : List (Row α)) : List (Row α) × Nat :=
  (dedupAux [] df, df.length - (dedupAux ([] : List (List Nat × Int × String)) df).length)

theorem dedupAux_sublist {α : Type} :
    ∀ (l : List (Row α)) (seen : List (List Nat × Int × String)),
      (dedupAux seen l).Sublist l
  | [], _ => List.Sublist.refl []
  | r :: rs, seen => by
    by_cases h : keyOf r ∈ seen
    · simp only [dedupAux, h, if_pos]
      exact (dedupAux_sublist rs seen).cons r
    · simp only [dedupAux, h, if_neg, not_false_iff]
      exact (dedupAux_sublist rs (keyOf r :: seen)).cons₂ r

theorem dedupAux_keys_new {α : Type} :
    ∀ (l : List (Row α)) (seen : List (List Nat × Int × String)),
      ∀ x ∈ dedupAux seen l, keyOf x ∉ seen
  | [], _, x, hx => by simp [dedupAux] at hx
  | r :: rs, seen, x, hx => by
    by_cases h : keyOf r ∈ seen
    · simp only [dedupAux, h, if_pos] at hx
      exact dedupAux_keys_new rs seen x hx
    · simp only [dedupAux, h, if_neg, not_false_iff] at hx
      rcases List.mem_cons.mp hx with h1 | h1
      · rw [h1]; exact h
      · have := dedupAux_keys_new rs (keyOf r :: seen) x h1
        intro hmem
        exact this (List.mem_cons_of_mem _ hmem)

theorem dedupAux_complete {α : Type} :
    ∀ (l : List (Row α)) (seen : List (List Nat × Int × String)),
      ∀ r ∈ l, keyOf r ∉ seen → ∃ x ∈ dedupAux seen l, keyOf x = keyOf r
  | [], _, r, hr, _ => by simp at hr
  | a :: rs, seen, r, hr, hnew => by
    by_cases h : keyOf a ∈ seen
    · simp only [dedupAux, h, if_pos]
      rcases List.mem_cons.mp hr with h1 | h1
      · exact absurd (h1 ▸ h) hnew
      · exact dedupAux_complete rs seen r h1 hnew
    · simp only [dedupAux, h, if_neg, not_false_iff]
      rcases List.mem_cons.mp hr with h1 | h1
      · exact ⟨a, List.mem_cons_self a _, by rw [h1]⟩
      · by_cases hk : keyOf r = keyOf a
        · exact ⟨a, List.mem_cons_self a _, hk.symm⟩
        · have hnew2 : keyOf r ∉ keyOf a :: seen := by
            intro hmem
            rcases List.mem_cons.mp hmem with h2 | h2
            · exact hk h2
            · exact hnew h2
          obtain ⟨x, hx, hxk⟩ := dedupAux_complete rs (keyOf a :: seen) r h1 hnew2
          exact ⟨x, List.mem_cons_of_mem a hx, hxk⟩

theorem dedupAux_pairwise {α : Type} :
    ∀ (l : List (Row α)) (seen : List (List Nat × Int × String)),
      (dedupAux seen l).Pairwise (fun x y => keyOf x ≠ keyOf y)
  | [], _ => List.Pairwise.nil
  | r :: rs, seen => by
    by_cases h : keyOf r ∈ seen
    · simp only [dedupAux, h, if_pos]
      exact dedupAux_pairwise rs seen
    · simp only [dedupAux, h, if_neg, not_false_iff]
      refine List.Pairwise.cons ?_ (dedupAux_pairwise rs (keyOf r :: seen))
      intro y hy
      have := dedupAux_keys_new rs (keyOf r :: seen) y hy
      intro heq
      exact this (heq ▸ List.mem_cons_self _ _)

theorem dedupAux_first {α : Type} :
    ∀ (l : List (Row α)) (seen : List (List Nat × Int × String)),
      ∀ x ∈ dedupAux seen l,
        ∃ l₁ l₂, l = l₁ ++ x :: l₂ ∧ ∀ y ∈ l₁, keyOf y ≠ keyOf x
  | [], _, x, hx => by simp [dedupAux] at hx
  | a :: rs, seen, x, hx => by
    by_cases h : keyOf a ∈ seen
    · simp only [dedupAux, h, if_pos] at hx
      obtain ⟨l₁, l₂, hsplit, hnot⟩ := dedupAux_first rs seen x hx
      have hxnew := dedupAux_keys_new rs seen x hx
      refine ⟨a :: l₁, l₂, by rw [hsplit]; rfl, ?_⟩
      intro y hy
      rcases List.mem_cons.mp hy with h1 | h1
      · rw [h1]
        intro heq
        exact hxnew (heq ▸ h)
      · exact hnot y h1
    · simp only [dedupAux, h, if_neg, not_false_iff] at hx
      rcases List.mem_cons.mp hx with h1 | h1
      · exact ⟨[], rs, by rw [h1]; rfl, by simp⟩
      · obtain ⟨l₁, l₂, hsplit, hnot⟩ := dedupAux_first rs (keyOf a :: seen) x h1
        have hxnew := dedupAux_keys_new rs (keyOf a :: seen) x h1
        refine ⟨a :: l₁, l₂, by rw [hsplit]; rfl, ?_⟩
        intro y hy
        rcases List.mem_cons.mp hy with h2 | h2
        · rw [h2]
          intro heq
          exact hxnew (heq ▸ List.mem_cons_self _ _)
        · exact hnot y h2

/-- C10: `remove_duplicates` drops exactly the rows repeating the
(review_text, rating, bank_code) key of an earlier row: the kept rows form
a sublist of the input (order preserved), every input key survives, kept
rows have pairwise distinct keys, each kept row is the first input row with
its key, and the recorded statistic counts the dropped rows. Two rows are
duplicates exactly when all three key columns agree. -/
theorem remove_duplicates_spec {α : Type} (df : List (Row α)) :
    ((remove_duplicates df).1).Sublist df ∧
    (∀ r ∈ df, ∃ x ∈ (remove_duplicates df).1, keyOf x = keyOf r) ∧
    ((remove_duplicates df).1).Pairwise (fun x y => keyOf x ≠ keyOf y) ∧
    (∀ x ∈ (remove_duplicates df).1,
      ∃ l₁ l₂, df = l₁ ++ x :: l₂ ∧ ∀ y ∈ l₁, keyOf y ≠ keyOf x) ∧
    (remove_duplicates df).2 = df.length - ((remove_duplicates df).1).length ∧
    (∀ x y : Row α, keyOf x = keyOf y ↔
      x.1 = y.1 ∧ x.2.1 = y.2.1 ∧ x.2.2.1 = y.2.2.1) := by
  refine ⟨dedupAux_sublist df [],
    fun r hr => dedupAux_complete df [] r hr (by simp),
    dedupAux_pairwise df [],
    fun x hx => dedupAux_first df [] x hx,
    rfl, ?_⟩
  intro x y
  constructor
  · intro h
    exact ⟨congrArg (fun p : List Nat × Int × String => p.1) h,
      congrArg (fun p : List Nat × Int × String => p.2.1) h,
      congrArg (fun p : List Nat × Int × String => p.2.2) h⟩
  · intro ⟨h1, h2, h3⟩
    show (x.1, x.2.1, x.2.2.1) = (y.1, y.2.1, y.2.2.1)
    rw [h1, h2, h3]

/-- Concrete four-row table from the duplicate-removal test fixture: rows
one and two share all three key columns; rows three and four differ from
row one in rating or bank code despite equal text. -/
def dupRows : List (Row Nat) :=
  [(kwCodes "Great app", 5, "CBE", 0),
   (kwCodes "Great app", 5, "CBE", 1),
   (kwCodes "Bad app", 1, "CBE", 2),
   (kwCodes "Great app", 4, "BOA", 3)]

/-- Witness for C10: on the test fixture the second row is the only
duplicate — three rows survive, one removal is recorded, and the key of
the fourth row (same text, different rating and bank) survives. -/
theorem remove_duplicates_witness :
    (∃ x ∈ (remove_duplicates dupRows).1,
      keyOf x = keyOf (kwCodes "Great app", (4 : Int), "BOA", (3 : Nat))) ∧
    (remove_duplicates dupRows).1.length = 3 ∧
    (remove_duplicates dupRows).2 = 1 := by
  refine ⟨(remove_duplicates_spec dupRows).2.1
    (kwCodes "Great app", 4, "BOA", 3) (by decide), by decide, by decide⟩
